import Mathlib

/-!
Shallow embedding of the GitHub Talent Sourcer pipeline
(src/csv-exporter.ts, the GitHub client and the type declarations shipped
with it).  Pure functions of the TypeScript source are translated into
executable Lean definitions; the stateful accumulation maps become explicit
insertion-ordered association lists (the semantics of a JavaScript `Map`),
and the network is abstracted into explicit lists of fetched entries and a
profile-lookup oracle.  Counters are `Nat` (the source only ever adds
non-negative integers to them).
-/

/-- JavaScript `String.prototype.includes(pat)` over explicit character
lists: `true` iff `pat` occurs as a contiguous substring. -/
def containsSub (pat : List Char) : List Char → Bool
  | [] => pat.isEmpty
  | c :: cs => pat.isPrefixOf (c :: cs) || containsSub pat cs

/-- JavaScript `String.prototype.replace(pat, '')` for a plain string
pattern: removes the first (leftmost) occurrence of `pat`, if any. -/
def replaceFirst (pat : List Char) : List Char → List Char
  | [] => []
  | c :: cs =>
    if pat.isPrefixOf (c :: cs) then (c :: cs).drop pat.length
    else c :: replaceFirst pat cs

/-- JavaScript `String.prototype.split(sep)` for a single-character
separator (`"".split('/') = [""]`, `"a/".split('/') = ["a",""]`). -/
def splitChar (sep : Char) : List Char → List (List Char)
  | [] => [[]]
  | c :: cs =>
    if c = sep then [] :: splitChar sep cs
    else
      match splitChar sep cs with
      | [] => [[c]]
      | r :: rs => (c :: r) :: rs

/-- First-occurrence-order deduplication with an explicit seen set: the
iteration semantics of inserting each element into a JavaScript `Set`. -/
def dedupFirstGo (seen : List String) : List String → List String
  | [] => []
  | a :: l => if a ∈ seen then dedupFirstGo seen l else a :: dedupFirstGo (a :: seen) l

/-- First-occurrence-order deduplication: the semantics of
`Array.from(new Set(xs))` in JavaScript. -/
def dedupFirst (l : List String) : List String := dedupFirstGo [] l

/-- A JavaScript `Date` restricted to a civil timestamp: year, month, day
and milliseconds within the day.  `Date` comparison (`<`, `>`) compares
epoch timestamps, which on this representation is the lexicographic
order. -/
structure JSDate where
  year : Nat
  month : Nat
  day : Nat
  msOfDay : Nat
deriving DecidableEq, Repr

/-- JavaScript `<` on two `Date`s (timestamp order). -/
def JSDate.ltb (a b : JSDate) : Bool :=
  if a.year ≠ b.year then decide (a.year < b.year)
  else if a.month ≠ b.month then decide (a.month < b.month)
  else if a.day ≠ b.day then decide (a.day < b.day)
  else decide (a.msOfDay < b.msOfDay)

/-- The decimal digit character for `n % 10`. -/
def digitChar (n : Nat) : Char := Char.ofNat (48 + n % 10)

/-- Two-digit zero-padded rendering (the month/day part of
`Date.prototype.toISOString`). -/
def pad2 (n : Nat) : String := String.mk [digitChar (n / 10), digitChar n]

/-- Four-digit zero-padded rendering (the year part of
`Date.prototype.toISOString`, valid for years 0–9999). -/
def pad4 (n : Nat) : String :=
  String.mk [digitChar (n / 1000), digitChar (n / 100), digitChar (n / 10), digitChar n]

/-- `date.toISOString().split('T')[0]`: the `YYYY-MM-DD` part of the ISO
rendering of a `Date`. -/
def isoDatePart (d : JSDate) : String :=
  pad4 d.year ++ "-" ++ pad2 d.month ++ "-" ++ pad2 d.day

/-- Checks that a string has the ten-character `YYYY-MM-DD` shape: four
digits, a dash, two digits, a dash, two digits. -/
def isYMD (s : String) : Bool :=
  match s.data with
  | [y1, y2, y3, y4, h1, m1, m2, h2, d1, d2] =>
    y1.isDigit && y2.isDigit && y3.isDigit && y4.isDigit && h1 = '-' &&
    m1.isDigit && m2.isDigit && h2 = '-' && d1.isDigit && d2.isDigit
  | _ => false

/-- `ContributorData` from the repository's type declarations. -/
structure ContributorData where
  username : String
  name : Option String
  email : Option String
  location : Option String
  bio : Option String
  company : Option String
  twitter : Option String
  blog : Option String
  profileUrl : String
  totalContributions : Nat
  pullRequests : Nat
  issues : Nat
  commits : Nat
  notableContributions : List String
  firstContribution : Option JSDate
  lastContribution : Option JSDate
  repoName : String
  fetchedAt : JSDate
deriving DecidableEq, Repr

/-- `RepoConfig` from the repository's type declarations. -/
structure RepoConfig where
  owner : String
  repo : String
  fullName : String
deriving DecidableEq, Repr

/-- `FetchOptions` from the repository's type declarations.  The flags
model the `!== false` checks in `fetchContributors`. -/
structure FetchOptions where
  locationFilter : Option (List String)
  minContributions : Nat
  activeWithinMonths : Option Nat
  includeIssueCreators : Bool
  includePRAuthors : Bool
  includeCommitters : Bool
deriving DecidableEq, Repr

/-- The slice of a GitHub user profile the client reads
(`users.getByUsername` response data). -/
structure Profile where
  login : String
  name : Option String
  email : Option String
  location : Option String
  bio : Option String
  company : Option String
  twitter_username : Option String
  blog : Option String
  html_url : String
deriving DecidableEq, Repr

/-- Result of matching the regex `github\.com\/([^\/]+)\/([^\/]+)` at the
head of the list: the two captured groups, or `none`.  A greedy `[^\/]+`
followed by a literal `/` can only match the maximal run of non-slash
characters (shortening the run never exposes a slash inside it), so the
captures are the maximal non-slash runs. -/
def takeNonSlash : List Char → List Char × List Char
  | [] => ([], [])
  | c :: cs =>
    if c = '/' then ([], c :: cs)
    else
      let (r, rest) := takeNonSlash cs
      (c :: r, rest)

/-- Attempt the regex match anchored at the head of the character list. -/
def matchGithubAt (s : List Char) : Option (List Char × List Char) :=
  if ("github.com/".data).isPrefixOf s then
    let rest := s.drop ("github.com/".data).length
    let (r1, rest1) := takeNonSlash rest
    if r1.isEmpty then none
    else
      match rest1 with
      | '/' :: rest2 =>
        let (r2, _) := takeNonSlash rest2
        if r2.isEmpty then none else some (r1, r2)
      | _ => none
  else none

/-- `String.prototype.match` with the regex above: leftmost match. -/
def regexSearch : List Char → Option (List Char × List Char)
  | [] => none
  | c :: cs =>
    match matchGithubAt (c :: cs) with
    | some r => some r
    | none => regexSearch cs

/-- `GitHubClient.parseRepo`: URL branch when the input contains
`github.com`, otherwise the `owner/repo` shorthand branch. -/
def parseRepo (repoInput : String) : Except String RepoConfig :=
  if containsSub ("github.com".data) repoInput.data then
    match regexSearch repoInput.data with
    | none => .error ("Invalid GitHub URL: " ++ repoInput)
    | some (o, r) =>
      let owner := String.mk o
      let repo := String.mk (replaceFirst (".git".data) r)
      .ok ⟨owner, repo, owner ++ "/" ++ repo⟩
  else
    match splitChar '/' repoInput.data with
    | [a, b] => .ok ⟨String.mk a, String.mk b, repoInput⟩
    | _ => .error ("Invalid repo format: " ++ repoInput ++ ". Use owner/repo or full GitHub URL")

/-- The per-run accumulation map keyed by username: a JavaScript `Map`
modelled as an insertion-ordered association list. -/
abbrev CMap := List (String × ContributorData)

/-- `Map.prototype.get`. -/
def mget (m : CMap) (k : String) : Option ContributorData :=
  match m with
  | [] => none
  | (k', v) :: rest => if k' = k then some v else mget rest k

/-- `Map.prototype.set`: replaces the value in place when the key exists
(keeping its insertion position), otherwise appends at the end. -/
def mset (m : CMap) (k : String) (v : ContributorData) : CMap :=
  match m with
  | [] => [(k, v)]
  | (k', v') :: rest => if k' = k then (k', v) :: rest else (k', v') :: mset rest k v

/-- The keys of the map, in insertion order. -/
def mkeys (m : CMap) : List String := m.map (·.1)

/-- `GitHubClient.fetchUserProfile`: the profile lookup against the data
source (`lookup`); on failure the catch block substitutes a placeholder
profile with null fields and a profile URL derived from the username. -/
def fetchUserProfile (lookup : String → Option Profile) (username : String) : Profile :=
  match lookup username with
  | some p => p
  | none =>
    ⟨username, none, none, none, none, none, none, none, "https://github.com/" ++ username⟩

/-- `GitHubClient.matchesLocation`: case-insensitive substring match of any
filter term against the location. -/
def matchesLocation (location : String) (filters : List String) : Bool :=
  filters.any (fun f => containsSub (f.toLower).data (location.toLower).data)

/-- The location-filter guard shared by the three passes:
`options.locationFilter && options.locationFilter.length > 0` and then
`!profile.location || !this.matchesLocation(...)` (a `null` or empty
location is falsy in JavaScript). -/
def locationRejects (lf : Option (List String)) (loc : Option String) : Bool :=
  match lf with
  | none => false
  | some filters =>
    if filters.length = 0 then false
    else
      match loc with
      | none => true
      | some l => if l = "" then true else !(matchesLocation l filters)

/-- One entry of the `repos.listContributors` response. -/
structure CommitStatEntry where
  type : String
  login : Option String
  contributions : Nat
deriving DecidableEq, Repr

/-- One entry of the `pulls.list` response (`pr.user?.login`, `pr.title`,
`pr.created_at`). -/
structure PREntry where
  login : Option String
  title : String
  createdAt : JSDate
deriving DecidableEq, Repr

/-- One entry of the `issues.listForRepo` response (`issue.pull_request`
is the back-reference marking PRs surfaced by the issues endpoint). -/
structure IssueEntry where
  isPullRequest : Bool
  login : Option String
  title : String
  createdAt : JSDate
deriving DecidableEq, Repr

/-- The body of the `fetchCommitters` loop for one response entry. -/
def commitBody (lookup : String → Option Profile) (opts : FetchOptions)
    (repo : RepoConfig) (now : JSDate) (m : CMap) (entry : CommitStatEntry) : CMap :=
  if entry.type ≠ "User" then m
  else
    match entry.login with
    | none => m
    | some username =>
      if username = "" then m
      else
        match mget m username with
        | none =>
          let profile := fetchUserProfile lookup username
          if locationRejects opts.locationFilter profile.location then m
          else
            mset m username
              { username := username
                name := profile.name, email := profile.email
                location := profile.location, bio := profile.bio
                company := profile.company, twitter := profile.twitter_username
                blog := profile.blog, profileUrl := profile.html_url
                totalContributions := entry.contributions
                pullRequests := 0, issues := 0, commits := entry.contributions
                notableContributions := []
                firstContribution := none, lastContribution := none
                repoName := repo.fullName, fetchedAt := now }
        | some existing =>
          mset m username
            { existing with
              commits := existing.commits + entry.contributions
              totalContributions := existing.totalContributions + entry.contributions }

/-- `GitHubClient.fetchCommitters`: a single page of up to 100 entries,
folded through the loop body (no date cutoff on this pass). -/
def processCommitters (lookup : String → Option Profile) (opts : FetchOptions)
    (repo : RepoConfig) (now : JSDate) (m : CMap) (entries : List CommitStatEntry) : CMap :=
  entries.foldl (commitBody lookup opts repo now) m

/-- The body of the `fetchPRAuthors` loop for one pull request. -/
def prBody (lookup : String → Option Profile) (opts : FetchOptions)
    (repo : RepoConfig) (now : JSDate) (m : CMap) (pr : PREntry) : CMap :=
  match pr.login with
  | none => m
  | some username =>
    if username = "" then m
    else
      match mget m username with
      | none =>
        let profile := fetchUserProfile lookup username
        if locationRejects opts.locationFilter profile.location then m
        else
          mset m username
            { username := username
              name := profile.name, email := profile.email
              location := profile.location, bio := profile.bio
              company := profile.company, twitter := profile.twitter_username
              blog := profile.blog, profileUrl := profile.html_url
              totalContributions := 1
              pullRequests := 1, issues := 0, commits := 0
              notableContributions := [pr.title]
              firstContribution := some pr.createdAt
              lastContribution := some pr.createdAt
              repoName := repo.fullName, fetchedAt := now }
      | some existing =>
        mset m username
          { existing with
            pullRequests := existing.pullRequests + 1
            totalContributions := existing.totalContributions + 1
            notableContributions :=
              if existing.notableContributions.length < 5 then
                existing.notableContributions ++ [pr.title]
              else existing.notableContributions
            firstContribution :=
              match existing.firstContribution with
              | none => some pr.createdAt
              | some f => if JSDate.ltb pr.createdAt f then some pr.createdAt else some f
            lastContribution :=
              match existing.lastContribution with
              | none => some pr.createdAt
              | some l => if JSDate.ltb l pr.createdAt then some pr.createdAt else some l }

/-- `GitHubClient.fetchPRAuthors` over the stream of pull requests the
paginated loop delivers (creation date descending).  The `cutoff`
parameter is the precomputed `now - activeWithinMonths` date (the
millisecond arithmetic on `Date.now()` is abstracted into it); a PR older
than the cutoff breaks out of the loop. -/
def processPRs (lookup : String → Option Profile) (opts : FetchOptions)
    (cutoff : Option JSDate) (repo : RepoConfig) (now : JSDate) (m : CMap) :
    List PREntry → CMap
  | [] => m
  | pr :: rest =>
    match cutoff with
    | some cut =>
      if JSDate.ltb pr.createdAt cut then m
      else processPRs lookup opts cutoff repo now (prBody lookup opts repo now m pr) rest
    | none => processPRs lookup opts cutoff repo now (prBody lookup opts repo now m pr) rest

/-- The body of the `fetchIssueCreators` loop for one issue. -/
def issueBody (lookup : String → Option Profile) (opts : FetchOptions)
    (repo : RepoConfig) (now : JSDate) (m : CMap) (is : IssueEntry) : CMap :=
  match is.login with
  | none => m
  | some username =>
    if username = "" then m
    else
      match mget m username with
      | none =>
        let profile := fetchUserProfile lookup username
        if locationRejects opts.locationFilter profile.location then m
        else
          mset m username
            { username := username
              name := profile.name, email := profile.email
              location := profile.location, bio := profile.bio
              company := profile.company, twitter := profile.twitter_username
              blog := profile.blog, profileUrl := profile.html_url
              totalContributions := 1
              pullRequests := 0, issues := 1, commits := 0
              notableContributions := [is.title]
              firstContribution := some is.createdAt
              lastContribution := some is.createdAt
              repoName := repo.fullName, fetchedAt := now }
      | some existing =>
        mset m username
          { existing with
            issues := existing.issues + 1
            totalContributions := existing.totalContributions + 1
            notableContributions :=
              if existing.notableContributions.length < 5 then
                existing.notableContributions ++ [is.title]
              else existing.notableContributions
            firstContribution :=
              match existing.firstContribution with
              | none => some is.createdAt
              | some f => if JSDate.ltb is.createdAt f then some is.createdAt else some f
            lastContribution :=
              match existing.lastContribution with
              | none => some is.createdAt
              | some l => if JSDate.ltb l is.createdAt then some is.createdAt else some l }

/-- `GitHubClient.fetchIssueCreators`: entries carrying a pull-request
back-reference are skipped with `continue`; an entry older than the cutoff
breaks out of the loop. -/
def processIssues (lookup : String → Option Profile) (opts : FetchOptions)
    (cutoff : Option JSDate) (repo : RepoConfig) (now : JSDate) (m : CMap) :
    List IssueEntry → CMap
  | [] => m
  | is :: rest =>
    if is.isPullRequest then processIssues lookup opts cutoff repo now m rest
    else
      match cutoff with
      | some cut =>
        if JSDate.ltb is.createdAt cut then m
        else processIssues lookup opts cutoff repo now (issueBody lookup opts repo now m is) rest
      | none => processIssues lookup opts cutoff repo now (issueBody lookup opts repo now m is) rest

/-- `GitHubClient.fetchContributors`: the three passes run in sequence on
one shared map (each guarded by its `!== false` option flag), and the
map's values are returned. -/
def fetchContributors (lookup : String → Option Profile) (opts : FetchOptions)
    (cutoff : Option JSDate) (repo : RepoConfig) (now : JSDate)
    (commitEntries : List CommitStatEntry) (prEntries : List PREntry)
    (issueEntries : List IssueEntry) : List ContributorData :=
  let m0 : CMap := []
  let m1 := if opts.includeCommitters then processCommitters lookup opts repo now m0 commitEntries else m0
  let m2 := if opts.includePRAuthors then processPRs lookup opts cutoff repo now m1 prEntries else m1
  let m3 := if opts.includeIssueCreators then processIssues lookup opts cutoff repo now m2 issueEntries else m2
  m3.map (·.2)

/-- The record-merge arithmetic of `CSVExporter.mergeContributors` for one
username present in both sets (the `else` branch of the second loop). -/
def merge2 (now : JSDate) (existing c : ContributorData) : ContributorData :=
  { existing with
    totalContributions := existing.totalContributions + c.totalContributions
    commits := existing.commits + c.commits
    pullRequests := existing.pullRequests + c.pullRequests
    issues := existing.issues + c.issues
    notableContributions :=
      (dedupFirst (existing.notableContributions ++ c.notableContributions)).take 5
    firstContribution :=
      match c.firstContribution, existing.firstContribution with
      | some cf, none => some cf
      | some cf, some ef => if JSDate.ltb cf ef then some cf else some ef
      | none, ef => ef
    lastContribution :=
      match c.lastContribution, existing.lastContribution with
      | some cl, none => some cl
      | some cl, some el => if JSDate.ltb el cl then some cl else some el
      | none, el => el
    repoName :=
      if containsSub c.repoName.data existing.repoName.data then existing.repoName
      else existing.repoName ++ ", " ++ c.repoName
    fetchedAt := now }

/-- The first loop of `mergeContributors`: seed the map with the existing
contributors. -/
def insertStep (m : CMap) (c : ContributorData) : CMap := mset m c.username c

/-- The second loop of `mergeContributors`: insert a new username, or fold
its record into the existing one. -/
def mergeStep (now : JSDate) (m : CMap) (c : ContributorData) : CMap :=
  match mget m c.username with
  | none => mset m c.username c
  | some existing => mset m c.username (merge2 now existing c)

/-- `CSVExporter.mergeContributors` (`existing.fetchedAt = new Date()` is
the `now` argument; `Array.from(merged.values())` is the ordered value
list). -/
def mergeContributors (now : JSDate) (existingContributors newContributors : List ContributorData) :
    List ContributorData :=
  ((newContributors.foldl (mergeStep now) (existingContributors.foldl insertStep [])).map (·.2))

/-- One row of the CSV as built in `CSVExporter.exportToCSV`: the record
spread plus the four re-rendered columns. -/
structure ExportRow where
  username : String
  name : Option String
  email : Option String
  location : Option String
  bio : Option String
  company : Option String
  twitter : Option String
  blog : Option String
  profileUrl : String
  totalContributions : Nat
  pullRequests : Nat
  issues : Nat
  commits : Nat
  repoName : String
  notableContributions : String
  firstContribution : String
  lastContribution : String
  fetchedAt : String
deriving DecidableEq, Repr

/-- The record-mapping step of `CSVExporter.exportToCSV`:
`slice(0, 3).join(' | ')` for the notable contributions, and
`toISOString().split('T')[0]` (empty for `null`) for the dates. -/
def exportRecord (c : ContributorData) : ExportRow :=
  { username := c.username
    name := c.name, email := c.email, location := c.location
    bio := c.bio, company := c.company, twitter := c.twitter, blog := c.blog
    profileUrl := c.profileUrl
    totalContributions := c.totalContributions
    pullRequests := c.pullRequests, issues := c.issues, commits := c.commits
    repoName := c.repoName
    notableContributions := String.intercalate " | " (c.notableContributions.take 3)
    firstContribution :=
      match c.firstContribution with
      | none => ""
      | some d => isoDatePart d
    lastContribution :=
      match c.lastContribution with
      | none => ""
      | some d => isoDatePart d
    fetchedAt := isoDatePart c.fetchedAt }

/-- `options.minContributions || 1` in `main`: a zero (falsy) threshold
falls back to 1. -/
def effectiveMin (minC : Nat) : Nat := if minC = 0 then 1 else minC

/-- The per-repository filter in `main`:
`contributors.filter(c => c.totalContributions >= (options.minContributions || 1))`. -/
def filterMin (minC : Nat) (l : List ContributorData) : List ContributorData :=
  l.filter (fun c => decide (effectiveMin minC ≤ c.totalContributions))

/-- Stable insertion (descending by `totalContributions`): the element is
placed before the first entry whose total does not exceed its own. -/
def insertDesc (c : ContributorData) : List ContributorData → List ContributorData
  | [] => [c]
  | x :: xs =>
    if x.totalContributions ≤ c.totalContributions then c :: x :: xs
    else x :: insertDesc c xs

/-- `allContributors.sort((a, b) => b.totalContributions - a.totalContributions)`:
a stable descending sort (ECMAScript `Array.prototype.sort` is stable), as
a stable insertion sort. -/
def sortByTotalDesc (l : List ContributorData) : List ContributorData :=
  l.foldr insertDesc []

/-- The export pipeline of `main` over the per-repository fetch results:
each repository's result set is filtered by the minimum-contributions
threshold, merged into the accumulated set, and the accumulated set is
sorted descending at the end. -/
def runPipeline (now : JSDate) (minC : Nat) (repoResults : List (List ContributorData)) :
    List ContributorData :=
  sortByTotalDesc
    (repoResults.foldl (fun acc res => mergeContributors now acc (filterMin minC res)) [])

/-- Modelled from the spec (section 4.4), for comparison with `runPipeline`:
the spec applies the minimum-contributions filter to the fully
inter-repository-merged record set and then sorts. -/
def specFilterSort (now : JSDate) (minC : Nat) (repoResults : List (List ContributorData)) :
    List ContributorData :=
  sortByTotalDesc
    (filterMin minC (repoResults.foldl (fun acc res => mergeContributors now acc res) []))

/-- A map invariant: every stored record satisfies `P`. -/
def MapInv (P : ContributorData → Prop) (m : CMap) : Prop :=
  ∀ p ∈ m, P p.2

/-! ### Sample data for concrete witnesses and counterexamples -/

def d2024 : JSDate := ⟨2024, 1, 1, 0⟩

def d2024b : JSDate := ⟨2024, 6, 1, 0⟩

def repoAcme : RepoConfig := ⟨"acme", "widgets", "acme/widgets"⟩

/-- The default options `main` builds when no environment overrides are
set: no location filter, threshold 1, no recency window, all passes on. -/
def optsDefault : FetchOptions := ⟨none, 1, none, true, true, true⟩

/-- A small concrete contributor record (one pull request). -/
def sampleAlice : ContributorData :=
  ⟨"alice", none, none, none, none, none, none, none, "https://github.com/alice",
   1, 1, 0, 0, ["Fix bug"], some d2024, some d2024b, "acme/widgets", d2024⟩

/-- The same record tagged with a different repository, as produced by the
second repository of a two-repository run. -/
def sampleAlice2 : ContributorData :=
  ⟨"alice", none, none, none, none, none, none, none, "https://github.com/alice",
   1, 1, 0, 0, ["Fix bug"], some d2024, some d2024b, "acme/gadgets", d2024⟩

/-- A record for a second, distinct username. -/
def sampleBob : ContributorData :=
  ⟨"bob", none, none, none, none, none, none, none, "https://github.com/bob",
   3, 0, 1, 2, ["Report bug"], some d2024b, some d2024b, "acme/gadgets", d2024⟩

/-! ### Association-map lemmas -/

theorem mkeys_nil : mkeys [] = [] := rfl

theorem mkeys_cons (a : String) (b : ContributorData) (rest : CMap) :
    mkeys ((a, b) :: rest) = a :: mkeys rest := rfl

theorem mget_mset_self (m : CMap) (k : String) (v : ContributorData) :
    mget (mset m k v) k = some v := by
  induction m with
  | nil => simp [mset, mget]
  | cons p rest ih =>
    obtain ⟨k', v'⟩ := p
    by_cases h : k' = k
    · simp [mset, mget, h]
    · simp [mset, mget, h, ih]

theorem mget_mset_ne (m : CMap) (k k' : String) (v : ContributorData) (h : k' ≠ k) :
    mget (mset m k v) k' = mget m k' := by
  have h' : k ≠ k' := Ne.symm h
  induction m with
  | nil => simp [mset, mget, h']
  | cons p rest ih =>
    obtain ⟨a, b⟩ := p
    by_cases ha : a = k
    · subst ha
      simp [mset, mget, h']
    · simp [mset, mget, ha, ih]

theorem mget_eq_none_iff (m : CMap) (k : String) :
    mget m k = none ↔ k ∉ mkeys m := by
  induction m with
  | nil => simp [mget, mkeys_nil]
  | cons p rest ih =>
    obtain ⟨a, b⟩ := p
    rw [mkeys_cons]
    by_cases ha : a = k
    · subst ha
      simp [mget]
    · simp only [mget, if_neg ha, List.mem_cons, ih]
      constructor
      · intro hh
        intro hc
        rcases hc with hc | hc
        · exact ha hc.symm
        · exact hh hc
      · intro hh hc
        exact hh (Or.inr hc)

theorem mget_mem_of_some (m : CMap) (k : String) (v : ContributorData)
    (h : mget m k = some v) : (k, v) ∈ m := by
  induction m with
  | nil => simp [mget] at h
  | cons p rest ih =>
    obtain ⟨a, b⟩ := p
    by_cases ha : a = k
    · subst ha
      simp [mget] at h
      simp [h]
    · simp [mget, ha] at h
      exact List.mem_cons_of_mem _ (ih h)

theorem mset_of_not_mem (m : CMap) (k : String) (v : ContributorData)
    (h : k ∉ mkeys m) : mset m k v = m ++ [(k, v)] := by
  induction m with
  | nil => simp [mset]
  | cons p rest ih =>
    obtain ⟨a, b⟩ := p
    rw [mkeys_cons, List.mem_cons] at h
    push_neg at h
    simp [mset, Ne.symm h.1, ih h.2]

theorem mkeys_mset_of_mem (m : CMap) (k : String) (v : ContributorData)
    (h : k ∈ mkeys m) : mkeys (mset m k v) = mkeys m := by
  induction m with
  | nil => simp [mkeys_nil] at h
  | cons p rest ih =>
    obtain ⟨a, b⟩ := p
    rw [mkeys_cons, List.mem_cons] at h
    by_cases ha : a = k
    · simp [mset, ha, mkeys_cons]
    · have hk : k ∈ mkeys rest := by
        rcases h with h | h
        · exact absurd h.symm ha
        · exact h
      simp [mset, ha, mkeys_cons, ih hk]

theorem mem_mset (m : CMap) (k : String) (v : ContributorData) (p : String × ContributorData)
    (h : p ∈ mset m k v) : p = (k, v) ∨ p ∈ m := by
  induction m with
  | nil => simp [mset] at h; simp [h]
  | cons q rest ih =>
    obtain ⟨a, b⟩ := q
    by_cases ha : a = k
    · subst ha
      simp only [mset, if_true, eq_self_iff_true, List.mem_cons] at h
      rcases h with h | h
      · exact Or.inl h
      · exact Or.inr (List.mem_cons_of_mem _ h)
    · simp only [mset, if_neg ha, List.mem_cons] at h
      rcases h with h | h
      · exact Or.inr (by simp [h])
      · rcases ih h with h' | h'
        · exact Or.inl h'
        · exact Or.inr (List.mem_cons_of_mem _ h')

theorem MapInv.of_mset {P : ContributorData → Prop} {m : CMap} {k : String}
    {v : ContributorData} (hm : MapInv P m) (hv : P v) : MapInv P (mset m k v) := by
  intro p hp
  rcases mem_mset m k v p hp with h | h
  · subst h; exact hv
  · exact hm p h

theorem MapInv.of_mget {P : ContributorData → Prop} {m : CMap} {k : String}
    {v : ContributorData} (hm : MapInv P m) (h : mget m k = some v) : P v :=
  hm (k, v) (mget_mem_of_some m k v h)

/-! ### dedupFirst lemmas -/

theorem mem_dedupFirstGo (seen l : List String) (x : String) :
    x ∈ dedupFirstGo seen l ↔ x ∈ l ∧ x ∉ seen := by
  induction l generalizing seen with
  | nil => simp [dedupFirstGo]
  | cons a l ih =>
    rw [dedupFirstGo]
    by_cases ha : a ∈ seen
    · rw [if_pos ha, ih]
      constructor
      · intro ⟨h1, h2⟩
        exact ⟨List.mem_cons_of_mem _ h1, h2⟩
      · intro ⟨h1, h2⟩
        rcases List.mem_cons.1 h1 with h | h
        · subst h; exact absurd ha h2
        · exact ⟨h, h2⟩
    · rw [if_neg ha]
      constructor
      · intro h
        rcases List.mem_cons.1 h with h | h
        · subst h; exact ⟨by simp, ha⟩
        · have := (ih (a :: seen)).1 h
          rw [List.mem_cons] at this
          push_neg at this
          exact ⟨List.mem_cons_of_mem _ this.1, this.2.2⟩
      · intro ⟨h1, h2⟩
        rcases List.mem_cons.1 h1 with h | h
        · subst h; simp
        · by_cases hxa : x = a
          · subst hxa; simp
          · exact List.mem_cons_of_mem _
              ((ih (a :: seen)).2 ⟨h, by simp [hxa, h2]⟩)

theorem mem_dedupFirst (l : List String) (x : String) :
    x ∈ dedupFirst l ↔ x ∈ l := by
  rw [dedupFirst, mem_dedupFirstGo]
  simp

theorem dedupFirstGo_nodup (seen l : List String) : (dedupFirstGo seen l).Nodup := by
  induction l generalizing seen with
  | nil => simp [dedupFirstGo]
  | cons a l ih =>
    rw [dedupFirstGo]
    by_cases ha : a ∈ seen
    · rw [if_pos ha]; exact ih seen
    · rw [if_neg ha]
      refine List.nodup_cons.2 ⟨?_, ih (a :: seen)⟩
      intro h
      have := (mem_dedupFirstGo (a :: seen) l a).1 h
      simp at this

theorem dedupFirst_nodup (l : List String) : (dedupFirst l).Nodup :=
  dedupFirstGo_nodup [] l

theorem dedupFirstGo_congr (seen seen' l : List String)
    (h : ∀ x, x ∈ seen ↔ x ∈ seen') : dedupFirstGo seen l = dedupFirstGo seen' l := by
  induction l generalizing seen seen' with
  | nil => simp [dedupFirstGo]
  | cons a l ih =>
    rw [dedupFirstGo, dedupFirstGo]
    by_cases ha : a ∈ seen
    · rw [if_pos ha, if_pos ((h a).1 ha)]
      exact ih seen seen' h
    · rw [if_neg ha, if_neg (fun hb => ha ((h a).2 hb))]
      rw [ih (a :: seen) (a :: seen') (by intro x; simp [h x])]

theorem dedupFirstGo_cons_filter (seen l : List String) (a : String) :
    dedupFirstGo (a :: seen) l = dedupFirstGo seen (l.filter (fun x => x ≠ a)) := by
  induction l generalizing seen with
  | nil => simp [dedupFirstGo]
  | cons b l ih =>
    by_cases hba : b = a
    · subst hba
      rw [dedupFirstGo, if_pos (by simp), List.filter_cons_of_neg (by simp)]
      exact ih seen
    · rw [dedupFirstGo, List.filter_cons_of_pos (by simp [hba]), dedupFirstGo]
      by_cases hb : b ∈ seen
      · rw [if_pos (by simp [hb]), if_pos hb]
        exact ih seen
      · rw [if_neg (by simp [hba, hb]), if_neg hb]
        congr 1
        rw [dedupFirstGo_congr (b :: a :: seen) (a :: b :: seen) l (by intro x; simp; tauto)]
        exact ih (b :: seen)

theorem dedupFirst_cons (a : String) (l : List String) :
    dedupFirst (a :: l) = a :: dedupFirst (l.filter (fun x => x ≠ a)) := by
  rw [dedupFirst, dedupFirstGo, if_neg (by simp), dedupFirstGo_cons_filter, dedupFirst]

/-! ### Sort lemmas -/

theorem insertDesc_perm (c : ContributorData) (l : List ContributorData) :
    (insertDesc c l).Perm (c :: l) := by
  induction l with
  | nil => simp [insertDesc]
  | cons x xs ih =>
    rw [insertDesc]
    by_cases h : x.totalContributions ≤ c.totalContributions
    · simp [h]
    · simp only [if_neg h]
      exact (ih.cons x).trans (List.Perm.swap c x xs)

theorem sortByTotalDesc_perm (l : List ContributorData) :
    (sortByTotalDesc l).Perm l := by
  induction l with
  | nil => simp [sortByTotalDesc]
  | cons x xs ih =>
    have : sortByTotalDesc (x :: xs) = insertDesc x (sortByTotalDesc xs) := rfl
    rw [this]
    exact (insertDesc_perm x _).trans (ih.cons x)

theorem mem_insertDesc {c y : ContributorData} {l : List ContributorData}
    (h : y ∈ insertDesc c l) : y = c ∨ y ∈ l :=
  List.mem_cons.1 ((insertDesc_perm c l).mem_iff.1 h)

theorem insertDesc_pairwise (c : ContributorData) (l : List ContributorData)
    (h : l.Pairwise (fun x y => y.totalContributions ≤ x.totalContributions)) :
    (insertDesc c l).Pairwise (fun x y => y.totalContributions ≤ x.totalContributions) := by
  induction l with
  | nil => simp [insertDesc]
  | cons x xs ih =>
    rw [insertDesc]
    rcases List.pairwise_cons.1 h with ⟨hx, hxs⟩
    by_cases hc : x.totalContributions ≤ c.totalContributions
    · simp only [if_pos hc]
      refine List.pairwise_cons.2 ⟨?_, h⟩
      intro y hy
      rcases List.mem_cons.1 hy with hy | hy
      · rw [hy]; exact hc
      · exact le_trans (hx y hy) hc
    · simp only [if_neg hc]
      refine List.pairwise_cons.2 ⟨?_, ih hxs⟩
      intro y hy
      rcases mem_insertDesc hy with hy | hy
      · rw [hy]; omega
      · exact hx y hy

theorem sortByTotalDesc_pairwise (l : List ContributorData) :
    (sortByTotalDesc l).Pairwise (fun x y => y.totalContributions ≤ x.totalContributions) := by
  induction l with
  | nil => simp [sortByTotalDesc]
  | cons x xs ih => exact insertDesc_pairwise x _ ih

/-! ### String-helper lemmas -/

theorem splitChar_length (sep : Char) (l : List Char) :
    (splitChar sep l).length = l.count sep + 1 := by
  induction l with
  | nil => simp [splitChar]
  | cons c cs ih =>
    rw [splitChar]
    by_cases h : c = sep
    · simp [h, List.count_cons, ih]
    · simp only [if_neg h]
      have hne : (splitChar sep cs) ≠ [] := by
        intro hh
        rw [hh] at ih
        simp at ih
      match hs : splitChar sep cs with
      | [] => exact absurd hs hne
      | r :: rs =>
        rw [hs] at ih
        simp at ih
        simp [List.count_cons, h, ih]

theorem replaceFirst_of_not_contains (pat l : List Char)
    (h : containsSub pat l = false) : replaceFirst pat l = l := by
  induction l with
  | nil => simp [replaceFirst]
  | cons c cs ih =>
    rw [containsSub, Bool.or_eq_false_iff] at h
    rw [replaceFirst, if_neg (by simp [h.1]), ih h.2]

theorem replaceFirst_of_contains (pat l : List Char)
    (h : containsSub pat l = true) :
    ∃ pre post, l = pre ++ pat ++ post ∧ replaceFirst pat l = pre ++ post ∧
      ∀ p q, l = p ++ pat ++ q → pre.length ≤ p.length := by
  induction l with
  | nil =>
    rw [containsSub] at h
    refine ⟨[], [], ?_, ?_, ?_⟩
    · simp [List.isEmpty_iff.1 h]
    · simp [replaceFirst]
    · intro p q _; simp
  | cons c cs ih =>
    rw [containsSub, Bool.or_eq_true] at h
    by_cases hp : pat.isPrefixOf (c :: cs) = true
    · have hpre : pat <+: (c :: cs) := List.isPrefixOf_iff_prefix.1 hp
      obtain ⟨t, ht⟩ := hpre
      refine ⟨[], t, by simp [ht.symm], ?_, ?_⟩
      · rw [replaceFirst, if_pos hp, ← ht]
        simp
      · intro p q _; simp
    · have hcs : containsSub pat cs = true := by
        rcases h with h | h
        · exact absurd h hp
        · exact h
      obtain ⟨pre, post, heq, hrep, hmin⟩ := ih hcs
      refine ⟨c :: pre, post, by simp [heq], ?_, ?_⟩
      · rw [replaceFirst, if_neg hp, hrep]; simp
      · intro p q hpq
        match p with
        | [] =>
          exfalso
          apply hp
          rw [List.isPrefixOf_iff_prefix]
          exact ⟨q, by simpa using hpq.symm⟩
        | x :: p' =>
          simp only [List.cons_append, List.cons.injEq] at hpq
          have := hmin p' q hpq.2
          simp only [List.length_cons]
          omega

theorem containsSub_of_isPrefixOf (pat l : List Char) (h : pat.isPrefixOf l = true) :
    containsSub pat l = true := by
  cases l with
  | nil =>
    have : pat <+: [] := List.isPrefixOf_iff_prefix.1 h
    rw [containsSub]
    simpa using List.prefix_nil.1 this
  | cons c cs => rw [containsSub, h, Bool.true_or]

theorem containsSub_self (l : List Char) : containsSub l l = true := by
  cases l with
  | nil => rfl
  | cons c cs =>
    rw [containsSub]
    have : (c :: cs).isPrefixOf (c :: cs) = true := by
      rw [List.isPrefixOf_iff_prefix]
    rw [this, Bool.true_or]

theorem regexSearch_contains (s : List Char) (o r : List Char)
    (h : regexSearch s = some (o, r)) : containsSub ("github.com".data) s = true := by
  induction s with
  | nil => simp [regexSearch] at h
  | cons c cs ih =>
    rw [regexSearch] at h
    match hm : matchGithubAt (c :: cs) with
    | some p =>
      rw [matchGithubAt] at hm
      by_cases hpre : ("github.com/".data).isPrefixOf (c :: cs) = true
      · have h1 : ("github.com".data).isPrefixOf (c :: cs) = true := by
          rw [List.isPrefixOf_iff_prefix] at hpre ⊢
          have hsub : ("github.com".data) <+: ("github.com/".data) := ⟨['/'], by decide⟩
          exact hsub.trans hpre
        rw [containsSub, h1, Bool.true_or]
      · rw [if_neg hpre] at hm
        exact absurd hm (by simp)
    | none =>
      rw [hm] at h
      have := ih h
      rw [containsSub, this, Bool.or_true]

/-! ### Date-rendering lemmas -/

theorem digitChar_isDigit (n : Nat) : (digitChar n).isDigit = true := by
  have h : n % 10 < 10 := Nat.mod_lt _ (by omega)
  rw [digitChar]
  interval_cases hk : n % 10 <;> decide

theorem JSDate.ltb_irrefl (d : JSDate) : JSDate.ltb d d = false := by
  simp [JSDate.ltb]

theorem isYMD_isoDatePart (d : JSDate) : isYMD (isoDatePart d) = true := by
  have hdata : (isoDatePart d).data =
      [digitChar (d.year / 1000), digitChar (d.year / 100), digitChar (d.year / 10),
       digitChar d.year, '-', digitChar (d.month / 10), digitChar d.month, '-',
       digitChar (d.day / 10), digitChar d.day] := by
    simp [isoDatePart, pad4, pad2, String.data_append]
  rw [isYMD, hdata]
  simp [digitChar_isDigit]

/-! ### Merge-invariant machinery -/

theorem foldl_insertStep_inv (P : ContributorData → Prop) (l : List ContributorData)
    (m : CMap) (hm : MapInv P m) (hl : ∀ c ∈ l, P c) :
    MapInv P (l.foldl insertStep m) := by
  induction l generalizing m with
  | nil => exact hm
  | cons c cs ih =>
    exact ih _ (hm.of_mset (hl c (by simp))) (fun x hx => hl x (List.mem_cons_of_mem _ hx))

theorem foldl_mergeStep_inv (P : ContributorData → Prop) (now : JSDate)
    (hP : ∀ e c, P e → P c → P (merge2 now e c)) (l : List ContributorData)
    (m : CMap) (hm : MapInv P m) (hl : ∀ c ∈ l, P c) :
    MapInv P (l.foldl (mergeStep now) m) := by
  induction l generalizing m with
  | nil => exact hm
  | cons c cs ih =>
    have hstep : MapInv P (mergeStep now m c) := by
      rw [mergeStep]
      match hg : mget m c.username with
      | none => exact hm.of_mset (hl c (by simp))
      | some e => exact hm.of_mset (hP e c (hm.of_mget hg) (hl c (by simp)))
    exact ih _ hstep (fun x hx => hl x (List.mem_cons_of_mem _ hx))

theorem mergeContributors_inv (P : ContributorData → Prop) (now : JSDate)
    (hP : ∀ e c, P e → P c → P (merge2 now e c))
    (a b : List ContributorData) (ha : ∀ c ∈ a, P c) (hb : ∀ c ∈ b, P c) :
    ∀ c ∈ mergeContributors now a b, P c := by
  intro c hc
  rw [mergeContributors] at hc
  obtain ⟨p, hp, hpc⟩ := List.mem_map.1 hc
  have := foldl_mergeStep_inv P now hP b _
    (foldl_insertStep_inv P a [] (by intro p hp; simp at hp) ha) hb
  rw [← hpc]
  exact this p hp

/-! ### Pass-invariant machinery

For each collection pass, a predicate `P` on records is preserved when it
holds for every freshly created record and is preserved by the pass's
update arithmetic.  The hypotheses below quantify over exactly the record
shapes the pass bodies construct. -/

theorem commitBody_inv (P : ContributorData → Prop) (lookup : String → Option Profile)
    (opts : FetchOptions) (repo : RepoConfig) (now : JSDate)
    (entry : CommitStatEntry)
    (hnew : ∀ r : ContributorData, r.totalContributions = entry.contributions →
      r.commits = entry.contributions → r.pullRequests = 0 → r.issues = 0 → P r)
    (hupd : ∀ r : ContributorData, P r →
      P { r with commits := r.commits + entry.contributions,
                 totalContributions := r.totalContributions + entry.contributions })
    (m : CMap) (hm : MapInv P m) : MapInv P (commitBody lookup opts repo now m entry) := by
  rw [commitBody]
  by_cases ht : entry.type ≠ "User"
  · simp only [if_pos ht]; exact hm
  · simp only [if_neg ht]
    match entry.login with
    | none => exact hm
    | some username =>
      by_cases hu : username = ""
      · simp only [if_pos hu]; exact hm
      · simp only [if_neg hu]
        match hg : mget m username with
        | none =>
          by_cases hl : locationRejects opts.locationFilter
              (fetchUserProfile lookup username).location = true
          · simp only [if_pos hl]; exact hm
          · simp only [if_neg hl]
            exact hm.of_mset (hnew _ rfl rfl rfl rfl)
        | some existing => exact hm.of_mset (hupd existing (hm.of_mget hg))

theorem processCommitters_inv (P : ContributorData → Prop) (lookup : String → Option Profile)
    (opts : FetchOptions) (repo : RepoConfig) (now : JSDate)
    (entries : List CommitStatEntry)
    (hnew : ∀ e ∈ entries, ∀ r : ContributorData, r.totalContributions = e.contributions →
      r.commits = e.contributions → r.pullRequests = 0 → r.issues = 0 → P r)
    (hupd : ∀ e ∈ entries, ∀ r : ContributorData, P r →
      P { r with commits := r.commits + e.contributions,
                 totalContributions := r.totalContributions + e.contributions })
    (m : CMap) (hm : MapInv P m) :
    MapInv P (processCommitters lookup opts repo now m entries) := by
  induction entries generalizing m with
  | nil => exact hm
  | cons e es ih =>
    have hstep := commitBody_inv P lookup opts repo now e
      (hnew e (by simp)) (hupd e (by simp)) m hm
    exact ih (fun x hx => hnew x (List.mem_cons_of_mem _ hx))
      (fun x hx => hupd x (List.mem_cons_of_mem _ hx)) _ hstep

theorem prBody_inv (P : ContributorData → Prop) (lookup : String → Option Profile)
    (opts : FetchOptions) (repo : RepoConfig) (now : JSDate) (pr : PREntry)
    (hnew : ∀ r : ContributorData, r.totalContributions = 1 →
      r.pullRequests = 1 → r.commits = 0 → r.issues = 0 → P r)
    (hupd : ∀ (r : ContributorData) (nc : List String) (f l : Option JSDate), P r →
      P { r with pullRequests := r.pullRequests + 1,
                 totalContributions := r.totalContributions + 1,
                 notableContributions := nc, firstContribution := f,
                 lastContribution := l })
    (m : CMap) (hm : MapInv P m) : MapInv P (prBody lookup opts repo now m pr) := by
  rw [prBody]
  match pr.login with
  | none => exact hm
  | some username =>
    by_cases hu : username = ""
    · simp only [if_pos hu]; exact hm
    · simp only [if_neg hu]
      match hg : mget m username with
      | none =>
        by_cases hl : locationRejects opts.locationFilter
            (fetchUserProfile lookup username).location = true
        · simp only [if_pos hl]; exact hm
        · simp only [if_neg hl]
          exact hm.of_mset (hnew _ rfl rfl rfl rfl)
      | some existing => exact hm.of_mset (hupd existing _ _ _ (hm.of_mget hg))

theorem processPRs_nil (lookup : String → Option Profile) (opts : FetchOptions)
    (cutoff : Option JSDate) (repo : RepoConfig) (now : JSDate) (m : CMap) :
    processPRs lookup opts cutoff repo now m [] = m := rfl

theorem processPRs_cons_none (lookup : String → Option Profile) (opts : FetchOptions)
    (repo : RepoConfig) (now : JSDate) (m : CMap) (pr : PREntry) (rest : List PREntry) :
    processPRs lookup opts none repo now m (pr :: rest)
      = processPRs lookup opts none repo now (prBody lookup opts repo now m pr) rest := rfl

theorem processPRs_cons_some (lookup : String → Option Profile) (opts : FetchOptions)
    (cut : JSDate) (repo : RepoConfig) (now : JSDate) (m : CMap) (pr : PREntry)
    (rest : List PREntry) :
    processPRs lookup opts (some cut) repo now m (pr :: rest)
      = if JSDate.ltb pr.createdAt cut then m
        else processPRs lookup opts (some cut) repo now (prBody lookup opts repo now m pr) rest := rfl

theorem processPRs_inv (P : ContributorData → Prop) (lookup : String → Option Profile)
    (opts : FetchOptions) (cutoff : Option JSDate) (repo : RepoConfig) (now : JSDate)
    (prs : List PREntry)
    (hnew : ∀ r : ContributorData, r.totalContributions = 1 →
      r.pullRequests = 1 → r.commits = 0 → r.issues = 0 → P r)
    (hupd : ∀ (r : ContributorData) (nc : List String) (f l : Option JSDate), P r →
      P { r with pullRequests := r.pullRequests + 1,
                 totalContributions := r.totalContributions + 1,
                 notableContributions := nc, firstContribution := f,
                 lastContribution := l })
    (m : CMap) (hm : MapInv P m) :
    MapInv P (processPRs lookup opts cutoff repo now m prs) := by
  induction prs generalizing m with
  | nil => exact hm
  | cons pr rest ih =>
    have hstep := prBody_inv P lookup opts repo now pr hnew hupd m hm
    match cutoff with
    | some cut =>
      rw [processPRs_cons_some]
      by_cases hcut : JSDate.ltb pr.createdAt cut = true
      · simp only [if_pos hcut]; exact hm
      · simp only [if_neg hcut]; exact ih _ hstep
    | none =>
      rw [processPRs_cons_none]
      exact ih _ hstep

theorem issueBody_inv (P : ContributorData → Prop) (lookup : String → Option Profile)
    (opts : FetchOptions) (repo : RepoConfig) (now : JSDate) (is : IssueEntry)
    (hnew : ∀ r : ContributorData, r.totalContributions = 1 →
      r.issues = 1 → r.commits = 0 → r.pullRequests = 0 → P r)
    (hupd : ∀ (r : ContributorData) (nc : List String) (f l : Option JSDate), P r →
      P { r with issues := r.issues + 1,
                 totalContributions := r.totalContributions + 1,
                 notableContributions := nc, firstContribution := f,
                 lastContribution := l })
    (m : CMap) (hm : MapInv P m) : MapInv P (issueBody lookup opts repo now m is) := by
  rw [issueBody]
  match is.login with
  | none => exact hm
  | some username =>
    by_cases hu : username = ""
    · simp only [if_pos hu]; exact hm
    · simp only [if_neg hu]
      match hg : mget m username with
      | none =>
        by_cases hl : locationRejects opts.locationFilter
            (fetchUserProfile lookup username).location = true
        · simp only [if_pos hl]; exact hm
        · simp only [if_neg hl]
          exact hm.of_mset (hnew _ rfl rfl rfl rfl)
      | some existing => exact hm.of_mset (hupd existing _ _ _ (hm.of_mget hg))

theorem processIssues_nil (lookup : String → Option Profile) (opts : FetchOptions)
    (cutoff : Option JSDate) (repo : RepoConfig) (now : JSDate) (m : CMap) :
    processIssues lookup opts cutoff repo now m [] = m := rfl

theorem processIssues_cons (lookup : String → Option Profile) (opts : FetchOptions)
    (cutoff : Option JSDate) (repo : RepoConfig) (now : JSDate) (m : CMap) (is : IssueEntry)
    (rest : List IssueEntry) :
    processIssues lookup opts cutoff repo now m (is :: rest)
      = if is.isPullRequest then processIssues lookup opts cutoff repo now m rest
        else
          match cutoff with
          | some cut =>
            if JSDate.ltb is.createdAt cut then m
            else processIssues lookup opts cutoff repo now (issueBody lookup opts repo now m is) rest
          | none => processIssues lookup opts cutoff repo now (issueBody lookup opts repo now m is) rest := by
  cases cutoff <;> rfl

theorem processIssues_inv (P : ContributorData → Prop) (lookup : String → Option Profile)
    (opts : FetchOptions) (cutoff : Option JSDate) (repo : RepoConfig) (now : JSDate)
    (issues : List IssueEntry)
    (hnew : ∀ r : ContributorData, r.totalContributions = 1 →
      r.issues = 1 → r.commits = 0 → r.pullRequests = 0 → P r)
    (hupd : ∀ (r : ContributorData) (nc : List String) (f l : Option JSDate), P r →
      P { r with issues := r.issues + 1,
                 totalContributions := r.totalContributions + 1,
                 notableContributions := nc, firstContribution := f,
                 lastContribution := l })
    (m : CMap) (hm : MapInv P m) :
    MapInv P (processIssues lookup opts cutoff repo now m issues) := by
  induction issues generalizing m with
  | nil => exact hm
  | cons is rest ih =>
    rw [processIssues_cons]
    by_cases hpr : is.isPullRequest = true
    · simp only [if_pos hpr]; exact ih _ hm
    · simp only [if_neg hpr]
      have hstep := issueBody_inv P lookup opts repo now is hnew hupd m hm
      match cutoff with
      | some cut =>
        by_cases hcut : JSDate.ltb is.createdAt cut = true
        · simp only [if_pos hcut]; exact hm
        · simp only [if_neg hcut]; exact ih _ hstep
      | none => exact ih _ hstep

theorem mapinv_if (P : ContributorData → Prop) (b : Bool) (m m' : CMap)
    (hm : MapInv P m) (hm' : MapInv P m') : MapInv P (if b then m' else m) := by
  cases b
  · simpa using hm
  · simpa using hm'

theorem fetchContributors_inv (P : ContributorData → Prop) (lookup : String → Option Profile)
    (opts : FetchOptions) (cutoff : Option JSDate) (repo : RepoConfig) (now : JSDate)
    (commitEntries : List CommitStatEntry) (prEntries : List PREntry)
    (issueEntries : List IssueEntry)
    (hnewC : ∀ e ∈ commitEntries, ∀ r : ContributorData,
      r.totalContributions = e.contributions → r.commits = e.contributions →
      r.pullRequests = 0 → r.issues = 0 → P r)
    (hupdC : ∀ e ∈ commitEntries, ∀ r : ContributorData, P r →
      P { r with commits := r.commits + e.contributions,
                 totalContributions := r.totalContributions + e.contributions })
    (hnewP : ∀ r : ContributorData, r.totalContributions = 1 →
      r.pullRequests = 1 → r.commits = 0 → r.issues = 0 → P r)
    (hupdP : ∀ (r : ContributorData) (nc : List String) (f l : Option JSDate), P r →
      P { r with pullRequests := r.pullRequests + 1,
                 totalContributions := r.totalContributions + 1,
                 notableContributions := nc, firstContribution := f,
                 lastContribution := l })
    (hnewI : ∀ r : ContributorData, r.totalContributions = 1 →
      r.issues = 1 → r.commits = 0 → r.pullRequests = 0 → P r)
    (hupdI : ∀ (r : ContributorData) (nc : List String) (f l : Option JSDate), P r →
      P { r with issues := r.issues + 1,
                 totalContributions := r.totalContributions + 1,
                 notableContributions := nc, firstContribution := f,
                 lastContribution := l }) :
    ∀ c ∈ fetchContributors lookup opts cutoff repo now commitEntries prEntries issueEntries,
      P c := by
  intro c hc
  rw [fetchContributors] at hc
  obtain ⟨p, hp, hpc⟩ := List.mem_map.1 hc
  have h0 : MapInv P ([] : CMap) := by intro q hq; simp at hq
  have h1 := mapinv_if P opts.includeCommitters []
    (processCommitters lookup opts repo now [] commitEntries) h0
    (processCommitters_inv P lookup opts repo now commitEntries hnewC hupdC [] h0)
  have h2 := mapinv_if P opts.includePRAuthors _
    (processPRs lookup opts cutoff repo now _ prEntries) h1
    (processPRs_inv P lookup opts cutoff repo now prEntries hnewP hupdP _ h1)
  have h3 := mapinv_if P opts.includeIssueCreators _
    (processIssues lookup opts cutoff repo now _ issueEntries) h2
    (processIssues_inv P lookup opts cutoff repo now issueEntries hnewI hupdI _ h2)
  rw [← hpc]
  exact h3 p hp

/-! ### parseRepo unfolding helpers -/

theorem parseRepo_of_not_contains (s : String)
    (h : containsSub ("github.com".data) s.data = false) :
    parseRepo s =
      match splitChar '/' s.data with
      | [a, b] => .ok ⟨String.mk a, String.mk b, s⟩
      | _ => .error ("Invalid repo format: " ++ s ++ ". Use owner/repo or full GitHub URL") := by
  rw [parseRepo]
  rw [if_neg (by simp [h])]

theorem parseRepo_of_contains (s : String)
    (h : containsSub ("github.com".data) s.data = true) :
    parseRepo s =
      match regexSearch s.data with
      | none => .error ("Invalid GitHub URL: " ++ s)
      | some (o, r) =>
        .ok ⟨String.mk o, String.mk (replaceFirst (".git".data) r),
             String.mk o ++ "/" ++ String.mk (replaceFirst (".git".data) r)⟩ := by
  rw [parseRepo]
  rw [if_pos h]

/-! ### Claims C4 and C5: repository-reference parsing -/

/-- Claim C4 counterexample: the claim asserts that shorthand inputs with
an empty segment, such as "acme/" or "/widgets", fail with
InvalidRepositoryReference; on the code they parse successfully, because
`parseRepo` only checks that the split yields exactly two parts, not that
they are non-empty. -/
theorem C4_counterexample :
    parseRepo "acme/" = Except.ok ⟨"acme", "", "acme/"⟩
    ∧ parseRepo "/widgets" = Except.ok ⟨"", "widgets", "/widgets"⟩ :=
  ⟨rfl, rfl⟩

/-- Claim C4 (amended): for every input without the hosting-URL host
fragment, parsing succeeds exactly when the string splits on the separator
into exactly two segments — equivalently, when it contains exactly one
separator — and the segments may be empty: "acme/" and "/widgets" parse
successfully, while "not-a-repo" fails. -/
theorem C4_amended_split_segments (s : String)
    (h : containsSub ("github.com".data) s.data = false) :
    ((∃ cfg, parseRepo s = Except.ok cfg) ↔ s.data.count '/' = 1)
    ∧ parseRepo "acme/" = Except.ok ⟨"acme", "", "acme/"⟩
    ∧ parseRepo "/widgets" = Except.ok ⟨"", "widgets", "/widgets"⟩
    ∧ parseRepo "not-a-repo"
        = Except.error "Invalid repo format: not-a-repo. Use owner/repo or full GitHub URL" := by
  refine ⟨?_, rfl, rfl, rfl⟩
  rw [parseRepo_of_not_contains s h]
  have hlen := splitChar_length '/' s.data
  rcases hs : splitChar '/' s.data with _ | ⟨a, _ | ⟨b, _ | ⟨c, t⟩⟩⟩ <;>
    simp [hs] at hlen ⊢ <;> omega

theorem C4_witness :
    ("acme/widgets".data.count '/' = 1)
    ∧ (∃ cfg, parseRepo "acme/widgets" = Except.ok cfg) :=
  ⟨by decide, ((C4_amended_split_segments "acme/widgets" (by rfl)).1).2 (by decide)⟩

/-- Claim C5 counterexample: the claim asserts that a name segment whose
".git" occurrence is not a trailing suffix is returned unchanged; the code
calls `replace('.git', '')`, which removes the first occurrence anywhere,
so "my.gitrepo" becomes "myrepo". -/
theorem C5_counterexample :
    parseRepo "https://github.com/acme/my.gitrepo"
      = Except.ok ⟨"acme", "myrepo", "acme/myrepo"⟩
    ∧ ("myrepo" : String) ≠ "my.gitrepo" :=
  ⟨rfl, by decide⟩

/-- Claim C5 (amended): for every URL input on which the host-and-two-
segments pattern matches, the parser returns the first two path segments
as owner and name, with the first occurrence of ".git" anywhere in the
name removed (not only a trailing suffix): the name is unchanged exactly
when it contains no ".git" occurrence, and otherwise the leftmost
occurrence is excised.  "https://github.com/acme/widgets.git" parses to
{acme, widgets, acme/widgets}. -/
theorem C5_amended_replace_first (s : String) (o r : List Char)
    (h : regexSearch s.data = some (o, r)) :
    parseRepo s = Except.ok ⟨String.mk o, String.mk (replaceFirst (".git".data) r),
        String.mk o ++ "/" ++ String.mk (replaceFirst (".git".data) r)⟩
    ∧ (containsSub (".git".data) r = false → replaceFirst (".git".data) r = r)
    ∧ (containsSub (".git".data) r = true →
        ∃ pre post, r = pre ++ (".git".data) ++ post
          ∧ replaceFirst (".git".data) r = pre ++ post
          ∧ ∀ p q, r = p ++ (".git".data) ++ q → pre.length ≤ p.length)
    ∧ parseRepo "https://github.com/acme/widgets.git"
        = Except.ok ⟨"acme", "widgets", "acme/widgets"⟩ := by
  refine ⟨?_, replaceFirst_of_not_contains _ _, replaceFirst_of_contains _ _, rfl⟩
  rw [parseRepo_of_contains s (regexSearch_contains s.data o r h), h]

theorem C5_witness :
    parseRepo "https://github.com/acme/widgets.git"
      = Except.ok ⟨"acme", "widgets", "acme/widgets"⟩ := by
  have h := (C5_amended_replace_first "https://github.com/acme/widgets.git"
    ("acme".data) ("widgets.git".data) (by rfl)).1
  exact h.trans (by rfl)

/-! ### Claims C7, C8, C9 -/

theorem take_min (l : List String) (n : Nat) : l.take n = l.take (min n l.length) := by
  rcases le_or_lt l.length n with h | h
  · rw [List.take_of_length_le h, Nat.min_eq_right h, List.take_length]
  · rw [Nat.min_eq_left (le_of_lt h)]

/-- One `fetchPRAuthors` loop iteration on a username that is already in
the accumulation map. -/
theorem prBody_existing (lookup : String → Option Profile) (opts : FetchOptions)
    (repo : RepoConfig) (now : JSDate) (m : CMap) (u t2 : String) (dt : JSDate)
    (e : ContributorData) (hu : u ≠ "") (hm : mget m u = some e) :
    prBody lookup opts repo now m ⟨some u, t2, dt⟩ = mset m u
      { e with
        pullRequests := e.pullRequests + 1
        totalContributions := e.totalContributions + 1
        notableContributions :=
          if e.notableContributions.length < 5 then e.notableContributions ++ [t2]
          else e.notableContributions
        firstContribution :=
          match e.firstContribution with
          | none => some dt
          | some f => if JSDate.ltb dt f then some dt else some f
        lastContribution :=
          match e.lastContribution with
          | none => some dt
          | some l => if JSDate.ltb l dt then some dt else some l } := by
  rw [prBody]
  simp only [hu, if_false, Bool.false_eq_true, reduceIte, hm]

/-- Claim C7 (confirmed): the exported notable-contributions column is the
first min(3, length) stored titles joined with the literal " | "
separator; a non-null first/last contribution date renders as a
ten-character YYYY-MM-DD string (the date part of `toISOString`), and a
null date renders as the empty string. -/
theorem C7_export_rendering (c : ContributorData) (d e : JSDate)
    (hf : c.firstContribution = some d) (hl : c.lastContribution = some e) :
    (exportRecord c).notableContributions
        = String.intercalate " | "
            (c.notableContributions.take (min 3 c.notableContributions.length))
    ∧ isYMD (exportRecord c).firstContribution = true
    ∧ (exportRecord c).firstContribution = isoDatePart d
    ∧ isYMD (exportRecord c).lastContribution = true
    ∧ (exportRecord c).lastContribution = isoDatePart e
    ∧ (exportRecord { c with firstContribution := none }).firstContribution = ""
    ∧ (exportRecord { c with lastContribution := none }).lastContribution = "" := by
  refine ⟨?_, ?_, ?_, ?_, ?_, ?_, ?_⟩
  · simp only [exportRecord]
    rw [take_min]
  · simp only [exportRecord, hf]
    exact isYMD_isoDatePart d
  · simp only [exportRecord, hf]
  · simp only [exportRecord, hl]
    exact isYMD_isoDatePart e
  · simp only [exportRecord, hl]
  · simp [exportRecord]
  · simp [exportRecord]

theorem C7_witness :
    isYMD (exportRecord sampleAlice).firstContribution = true
    ∧ (exportRecord sampleAlice).notableContributions = "Fix bug" :=
  ⟨(C7_export_rendering sampleAlice d2024 d2024b rfl rfl).2.1, by rfl⟩

/-- Claim C8 (confirmed): when the profile lookup for a username fails,
the substituted placeholder profile has null name, email, location, bio,
company, twitter and blog fields and a profile URL derived from the
username, and the commit pass carries on processing the remaining entries
with the placeholder-based record inserted — the failure never aborts the
pass. -/
theorem C8_placeholder_profile (lookup : String → Option Profile) (opts : FetchOptions)
    (repo : RepoConfig) (now : JSDate) (m : CMap) (entry : CommitStatEntry)
    (rest : List CommitStatEntry) (u : String)
    (hopts : opts.locationFilter = none)
    (htype : entry.type = "User") (hlog : entry.login = some u) (hu : u ≠ "")
    (hlookup : lookup u = none) (hm : mget m u = none) :
    fetchUserProfile lookup u
      = ⟨u, none, none, none, none, none, none, none, "https://github.com/" ++ u⟩
    ∧ ∃ r, processCommitters lookup opts repo now m (entry :: rest)
          = processCommitters lookup opts repo now (mset m u r) rest
        ∧ r.username = u ∧ r.name = none ∧ r.email = none ∧ r.location = none
        ∧ r.bio = none ∧ r.company = none ∧ r.twitter = none ∧ r.blog = none
        ∧ r.profileUrl = "https://github.com/" ++ u := by
  have hprof : fetchUserProfile lookup u
      = ⟨u, none, none, none, none, none, none, none, "https://github.com/" ++ u⟩ := by
    rw [fetchUserProfile, hlookup]
  have hstep : commitBody lookup opts repo now m entry
      = mset m u
          { username := u, name := none, email := none, location := none, bio := none,
            company := none, twitter := none, blog := none,
            profileUrl := "https://github.com/" ++ u,
            totalContributions := entry.contributions, pullRequests := 0, issues := 0,
            commits := entry.contributions, notableContributions := [],
            firstContribution := none, lastContribution := none,
            repoName := repo.fullName, fetchedAt := now } := by
    rw [commitBody, htype, hlog]
    simp [hu, hm, hprof, hopts, locationRejects]
  refine ⟨hprof,
    ⟨{ username := u, name := none, email := none, location := none, bio := none,
       company := none, twitter := none, blog := none,
       profileUrl := "https://github.com/" ++ u,
       totalContributions := entry.contributions, pullRequests := 0, issues := 0,
       commits := entry.contributions, notableContributions := [],
       firstContribution := none, lastContribution := none,
       repoName := repo.fullName, fetchedAt := now },
     ?_, rfl, rfl, rfl, rfl, rfl, rfl, rfl, rfl, rfl⟩⟩
  show processCommitters lookup opts repo now (commitBody lookup opts repo now m entry) rest = _
  rw [hstep]

theorem C8_witness :
    fetchUserProfile (fun _ => none) "bob"
      = ⟨"bob", none, none, none, none, none, none, none, "https://github.com/bob"⟩ :=
  (C8_placeholder_profile (fun _ => none) optsDefault repoAcme d2024 []
    ⟨"User", some "bob", 3⟩ [] "bob" rfl rfl rfl (by decide) rfl rfl).1

/-- Claim C9 (confirmed): within a repository's PR pass, titles are
appended without deduplication — two PRs with the same title by the same
user (while the list holds at most 3 entries) store the title twice —
while the inter-repository record merge always produces a deduplicated
notable-contributions list. -/
theorem C9_intra_no_dedup (lookup : String → Option Profile) (opts : FetchOptions)
    (repo : RepoConfig) (now : JSDate) (m : CMap) (u t : String) (d1 d2 : JSDate)
    (e : ContributorData) (hu : u ≠ "") (hm : mget m u = some e)
    (hlen : e.notableContributions.length ≤ 3) :
    (∃ r, mget (processPRs lookup opts none repo now m
          [⟨some u, t, d1⟩, ⟨some u, t, d2⟩]) u = some r
        ∧ r.notableContributions = e.notableContributions ++ [t, t]
        ∧ 2 ≤ r.notableContributions.count t)
    ∧ ∀ (now2 : JSDate) (x y : ContributorData),
        ((merge2 now2 x y).notableContributions).Nodup := by
  constructor
  · have h1 := prBody_existing lookup opts repo now m u t d1 e hu hm
    rw [if_pos (show e.notableContributions.length < 5 by omega)] at h1
    set e1 := ({ e with
        pullRequests := e.pullRequests + 1
        totalContributions := e.totalContributions + 1
        notableContributions := e.notableContributions ++ [t]
        firstContribution :=
          match e.firstContribution with
          | none => some d1
          | some f => if JSDate.ltb d1 f then some d1 else some f
        lastContribution :=
          match e.lastContribution with
          | none => some d1
          | some l => if JSDate.ltb l d1 then some d1 else some l } : ContributorData)
      with he1
    have hlen1 : e1.notableContributions = e.notableContributions ++ [t] := by rw [he1]
    have h2 := prBody_existing lookup opts repo now (mset m u e1) u t d2 e1 hu
      (mget_mset_self m u e1)
    rw [if_pos (show e1.notableContributions.length < 5 by rw [hlen1]; simp; omega)] at h2
    refine ⟨{ e1 with
        pullRequests := e1.pullRequests + 1
        totalContributions := e1.totalContributions + 1
        notableContributions := e1.notableContributions ++ [t]
        firstContribution :=
          match e1.firstContribution with
          | none => some d2
          | some f => if JSDate.ltb d2 f then some d2 else some f
        lastContribution :=
          match e1.lastContribution with
          | none => some d2
          | some l => if JSDate.ltb l d2 then some d2 else some l }, ?_, ?_, ?_⟩
    · rw [processPRs_cons_none, processPRs_cons_none, processPRs_nil, h1, h2]
      exact mget_mset_self _ u _
    · show e1.notableContributions ++ [t] = e.notableContributions ++ [t, t]
      rw [hlen1]
      simp
    · show 2 ≤ (e1.notableContributions ++ [t]).count t
      rw [hlen1]
      simp [List.count_append]
  · intro now2 x y
    simp only [merge2]
    exact List.Nodup.sublist (List.take_sublist _ _) (dedupFirst_nodup _)

theorem C9_witness :
    2 ≤ ((mget (processPRs (fun _ => none) optsDefault none repoAcme d2024
        [("alice", sampleAlice)]
        [⟨some "alice", "Fix bug", d2024⟩, ⟨some "alice", "Fix bug", d2024⟩]) "alice").elim 0
          (fun r => r.notableContributions.count "Fix bug")) := by
  obtain ⟨r, hr, _, hc⟩ := (C9_intra_no_dedup (fun _ => none) optsDefault repoAcme d2024
    [("alice", sampleAlice)] "alice" "Fix bug" d2024 d2024 sampleAlice (by decide) rfl
    (by decide)).1
  rw [hr]
  exact hc

/-! ### Claims C2 and C6 -/

/-- Claim C2 (confirmed): for every sequence of delivered commit-statistics,
pull-request and issue entries — and hence after every prefix of update
steps — every accumulated record satisfies
totalContributions = commits + pullRequests + issues, and the
inter-repository merge preserves the invariant. -/
theorem C2_total_invariant (lookup : String → Option Profile) (opts : FetchOptions)
    (cutoff : Option JSDate) (repo : RepoConfig) (now now2 : JSDate)
    (commitEntries : List CommitStatEntry) (prEntries : List PREntry)
    (issueEntries : List IssueEntry) (a b : List ContributorData)
    (ha : ∀ c ∈ a, c.totalContributions = c.commits + c.pullRequests + c.issues)
    (hb : ∀ c ∈ b, c.totalContributions = c.commits + c.pullRequests + c.issues) :
    (∀ c ∈ fetchContributors lookup opts cutoff repo now commitEntries prEntries issueEntries,
      c.totalContributions = c.commits + c.pullRequests + c.issues)
    ∧ (∀ c ∈ mergeContributors now2 a b,
      c.totalContributions = c.commits + c.pullRequests + c.issues) := by
  constructor
  · exact fetchContributors_inv
      (fun c => c.totalContributions = c.commits + c.pullRequests + c.issues)
      lookup opts cutoff repo now commitEntries prEntries issueEntries
      (by intro e he r h1 h2 h3 h4; omega)
      (by intro e he r hr; simp; omega)
      (by intro r h1 h2 h3 h4; omega)
      (by intro r nc f l hr; simp; omega)
      (by intro r h1 h2 h3 h4; omega)
      (by intro r nc f l hr; simp; omega)
  · exact mergeContributors_inv _ now2
      (by intro x y hx hy; simp [merge2]; omega) a b ha hb

theorem C2_witness :
    (merge2 d2024 sampleAlice sampleAlice2).totalContributions
      = (merge2 d2024 sampleAlice sampleAlice2).commits
        + (merge2 d2024 sampleAlice sampleAlice2).pullRequests
        + (merge2 d2024 sampleAlice sampleAlice2).issues :=
  (C2_total_invariant (fun _ => none) optsDefault none repoAcme d2024 d2024
    [] [] [] [sampleAlice] [sampleAlice2] (by decide) (by decide)).2
    (merge2 d2024 sampleAlice sampleAlice2) (by decide)

/-- Claim C6 (confirmed, under the data-source guarantee that a
commit-statistics entry reports at least one contribution): every record
created by the adapter has a total of at least 1, so filtering with
minimumContributions 0 (which the `|| 1` fallback turns into 1) or 1
returns every created record, and filtering with a threshold strictly
above every record's total returns the empty set. -/
theorem C6_filter_thresholds (lookup : String → Option Profile) (opts : FetchOptions)
    (cutoff : Option JSDate) (repo : RepoConfig) (now : JSDate)
    (commitEntries : List CommitStatEntry) (prEntries : List PREntry)
    (issueEntries : List IssueEntry)
    (hpos : ∀ e ∈ commitEntries, 1 ≤ e.contributions) :
    filterMin 0 (fetchContributors lookup opts cutoff repo now commitEntries prEntries issueEntries)
      = fetchContributors lookup opts cutoff repo now commitEntries prEntries issueEntries
    ∧ filterMin 1 (fetchContributors lookup opts cutoff repo now commitEntries prEntries issueEntries)
      = fetchContributors lookup opts cutoff repo now commitEntries prEntries issueEntries
    ∧ ∀ t, (∀ c ∈ fetchContributors lookup opts cutoff repo now commitEntries prEntries
          issueEntries, c.totalContributions < t) →
        filterMin t (fetchContributors lookup opts cutoff repo now commitEntries prEntries
          issueEntries) = [] := by
  have hge : ∀ c ∈ fetchContributors lookup opts cutoff repo now commitEntries prEntries
      issueEntries, 1 ≤ c.totalContributions :=
    fetchContributors_inv (fun c => 1 ≤ c.totalContributions)
      lookup opts cutoff repo now commitEntries prEntries issueEntries
      (by intro e he r h1 h2 h3 h4; have := hpos e he; omega)
      (by intro e he r hr; simp; omega)
      (by intro r h1 h2 h3 h4; omega)
      (by intro r nc f l hr; dsimp only; omega)
      (by intro r h1 h2 h3 h4; omega)
      (by intro r nc f l hr; dsimp only; omega)
  have h1 : filterMin 1 (fetchContributors lookup opts cutoff repo now commitEntries prEntries
      issueEntries) = fetchContributors lookup opts cutoff repo now commitEntries prEntries
      issueEntries := by
    rw [filterMin, List.filter_eq_self]
    intro c hc
    simpa [effectiveMin] using hge c hc
  refine ⟨h1, h1, ?_⟩
  intro t hlt
  rw [filterMin, List.filter_eq_nil_iff]
  intro c hc
  have := hge c hc
  have := hlt c hc
  simp only [effectiveMin, decide_eq_true_eq]
  split_ifs <;> omega

theorem C6_witness :
    filterMin 0 (fetchContributors (fun _ => none) optsDefault none repoAcme d2024
        [⟨"User", some "bob", 3⟩] [] [])
      = fetchContributors (fun _ => none) optsDefault none repoAcme d2024
        [⟨"User", some "bob", 3⟩] [] [] :=
  (C6_filter_thresholds (fun _ => none) optsDefault none repoAcme d2024
    [⟨"User", some "bob", 3⟩] [] [] (by decide)).1

/-! ### Map-order machinery for claims C3 and C10 -/

theorem mget_append_cons (A B : CMap) (k : String) (v : ContributorData)
    (h : k ∉ mkeys A) : mget (A ++ (k, v) :: B) k = some v := by
  induction A with
  | nil => simp [mget]
  | cons p rest ih =>
    obtain ⟨a, b⟩ := p
    rw [mkeys_cons, List.mem_cons] at h
    push_neg at h
    rw [List.cons_append, mget, if_neg (Ne.symm h.1)]
    exact ih h.2

theorem mset_append_cons (A B : CMap) (k : String) (v w : ContributorData)
    (h : k ∉ mkeys A) : mset (A ++ (k, v) :: B) k w = A ++ (k, w) :: B := by
  induction A with
  | nil => simp [mset]
  | cons p rest ih =>
    obtain ⟨a, b⟩ := p
    rw [mkeys_cons, List.mem_cons] at h
    push_neg at h
    rw [List.cons_append, mset, if_neg (Ne.symm h.1), ih h.2]
    rfl

theorem foldl_insertStep_append (l : List ContributorData) (A : CMap)
    (hnd : (l.map (fun c => c.username)).Nodup)
    (hdisj : ∀ c ∈ l, c.username ∉ mkeys A) :
    l.foldl insertStep A = A ++ l.map (fun c => (c.username, c)) := by
  induction l generalizing A with
  | nil => simp
  | cons c l ih =>
    rw [List.foldl_cons, List.map_cons]
    have hset : insertStep A c = A ++ [(c.username, c)] :=
      mset_of_not_mem A c.username c (hdisj c (by simp))
    rw [hset, ih (A ++ [(c.username, c)])
      (by
        rw [List.map_cons, List.nodup_cons] at hnd
        exact hnd.2)
      (by
        intro x hx
        rw [mkeys, List.map_append, List.mem_append]
        push_neg
        refine ⟨hdisj x (List.mem_cons_of_mem _ hx), ?_⟩
        rw [List.map_cons, List.nodup_cons] at hnd
        simp only [List.map_cons, List.map_nil, List.mem_singleton]
        intro hc
        exact hnd.1 (hc ▸ List.mem_map_of_mem (fun c => c.username) hx))]
    simp

theorem foldl_mergeStep_zip (now : JSDate) (S : List ContributorData)
    (f : ContributorData → ContributorData) (hf : ∀ c, (f c).username = c.username)
    (A : CMap) (hnd : (S.map (fun c => c.username)).Nodup)
    (hdisj : ∀ c ∈ S, c.username ∉ mkeys A) :
    (S.map f).foldl (mergeStep now) (A ++ S.map (fun c => (c.username, c)))
      = A ++ S.map (fun c => (c.username, merge2 now c (f c))) := by
  induction S generalizing A with
  | nil => simp
  | cons c S ih =>
    simp only [List.map_cons, List.foldl_cons]
    have hnotA : c.username ∉ mkeys A := hdisj c (by simp)
    have hstep : mergeStep now (A ++ (c.username, c) :: S.map (fun c => (c.username, c))) (f c)
        = A ++ (c.username, merge2 now c (f c)) :: S.map (fun c => (c.username, c)) := by
      rw [mergeStep, hf, mget_append_cons _ _ _ _ hnotA]
      exact mset_append_cons _ _ _ _ _ hnotA
    rw [hstep, List.append_cons _ (c.username, merge2 now c (f c)),
        List.append_cons _ (c.username, merge2 now c (f c)) (S.map (fun c => (c.username, merge2 now c (f c))))]
    rw [List.map_cons, List.nodup_cons] at hnd
    exact ih (A ++ [(c.username, merge2 now c (f c))]) hnd.2
      (by
        intro x hx
        rw [mkeys, List.map_append, List.mem_append]
        push_neg
        refine ⟨hdisj x (List.mem_cons_of_mem _ hx), ?_⟩
        simp only [List.map_cons, List.map_nil, List.mem_singleton]
        intro hc
        exact hnd.1 (hc ▸ List.mem_map_of_mem (fun c => c.username) hx))

/-- Merging a result set with a username-preserving transform of itself
folds each transformed record into its original, pointwise and in
order. -/
theorem mergeContributors_self (now : JSDate) (S : List ContributorData)
    (f : ContributorData → ContributorData) (hf : ∀ c, (f c).username = c.username)
    (hnd : (S.map (fun c => c.username)).Nodup) :
    mergeContributors now S (S.map f) = S.map (fun c => merge2 now c (f c)) := by
  have hb := foldl_insertStep_append S [] hnd (by intro c hc; simp [mkeys])
  rw [List.nil_append] at hb
  have hz := foldl_mergeStep_zip now S f hf [] hnd (by intro c hc; simp [mkeys])
  rw [List.nil_append, List.nil_append] at hz
  rw [mergeContributors, hb, hz, List.map_map]
  rfl

/-! ### Claims C3 and C10 -/

/-- Merging a record with its own copy under a fresh repository tag:
all four counters double, the notable list is deduplicated and capped,
dates are unchanged, and the repository column gains the new tag unless it
is already a substring. -/
theorem merge2_retag (now : JSDate) (rn : String) (c : ContributorData) :
    merge2 now c { c with repoName := rn }
      = { c with
          totalContributions := 2 * c.totalContributions
          commits := 2 * c.commits
          pullRequests := 2 * c.pullRequests
          issues := 2 * c.issues
          notableContributions :=
            (dedupFirst (c.notableContributions ++ c.notableContributions)).take 5
          repoName :=
            if containsSub rn.data c.repoName.data then c.repoName
            else c.repoName ++ ", " ++ rn
          fetchedAt := now } := by
  rw [merge2]
  cases hcf : c.firstContribution <;> cases hcl : c.lastContribution <;>
    simp [JSDate.ltb_irrefl, two_mul, hcf, hcl]

/-- Claim C3 (confirmed): inter-repository merging a result set with a
deep copy of itself carrying a different repository identifier doubles
every counter of every record, pointwise in order, and every merged
record's notable-contributions list is deduplicated and of length at most
5. -/
theorem C3_self_merge_doubles (now : JSDate) (rn : String) (S : List ContributorData)
    (hnd : (S.map (fun c => c.username)).Nodup) :
    mergeContributors now S (S.map (fun c => { c with repoName := rn }))
      = S.map (fun c =>
          { c with
            totalContributions := 2 * c.totalContributions
            commits := 2 * c.commits
            pullRequests := 2 * c.pullRequests
            issues := 2 * c.issues
            notableContributions :=
              (dedupFirst (c.notableContributions ++ c.notableContributions)).take 5
            repoName :=
              if containsSub rn.data c.repoName.data then c.repoName
              else c.repoName ++ ", " ++ rn
            fetchedAt := now })
    ∧ ∀ c ∈ mergeContributors now S (S.map (fun c => { c with repoName := rn })),
        c.notableContributions.Nodup ∧ c.notableContributions.length ≤ 5 := by
  have heq := mergeContributors_self now S (fun c => { c with repoName := rn })
    (fun c => rfl) hnd
  constructor
  · rw [heq]
    exact List.map_congr_left (fun c _ => merge2_retag now rn c)
  · intro c hc
    rw [heq] at hc
    obtain ⟨x, hx, hxc⟩ := List.mem_map.1 hc
    rw [← hxc]
    exact ⟨List.Nodup.sublist (List.take_sublist _ _) (dedupFirst_nodup _),
           List.length_take_le _ _⟩

theorem C3_witness :
    (mergeContributors d2024 [sampleAlice]
        ([sampleAlice].map (fun c => { c with repoName := "acme/gadgets" }))).map
      (fun c => c.totalContributions) = [2] := by
  rw [(C3_self_merge_doubles d2024 "acme/gadgets" [sampleAlice] (by decide)).1]
  rfl

theorem wf_foldl_mergeStep (now : JSDate) (b : List ContributorData) (m : CMap)
    (hm : ∀ p ∈ m, p.2.username = p.1) :
    ∀ p ∈ b.foldl (mergeStep now) m, p.2.username = p.1 := by
  induction b generalizing m with
  | nil => exact hm
  | cons c b ih =>
    rw [List.foldl_cons]
    apply ih
    intro p hp
    rw [mergeStep] at hp
    rcases hg : mget m c.username with _ | e
    · rw [hg] at hp
      rcases mem_mset _ _ _ _ hp with h | h
      · rw [h]
      · exact hm p h
    · rw [hg] at hp
      rcases mem_mset _ _ _ _ hp with h | h
      · rw [h]
        show (merge2 now e c).username = c.username
        exact hm (c.username, e) (mget_mem_of_some _ _ _ hg)
      · exact hm p h

theorem foldl_mergeStep_keys (now : JSDate) (b : List ContributorData) (m : CMap) :
    mkeys (b.foldl (mergeStep now) m)
      = mkeys m ++ dedupFirst ((b.map (fun c => c.username)).filter
          (fun u => decide (u ∉ mkeys m))) := by
  induction b generalizing m with
  | nil => simp [dedupFirst, dedupFirstGo]
  | cons c b ih =>
    rw [List.foldl_cons, List.map_cons]
    by_cases hc : c.username ∈ mkeys m
    · obtain ⟨e, he⟩ : ∃ e, mget m c.username = some e := by
        rcases h : mget m c.username with _ | e
        · rw [mget_eq_none_iff] at h
          exact absurd hc h
        · exact ⟨e, rfl⟩
      have hstep : mergeStep now m c = mset m c.username (merge2 now e c) := by
        rw [mergeStep, he]
      rw [hstep, ih, mkeys_mset_of_mem m _ _ hc, List.filter_cons_of_neg (by simp [hc])]
    · have hget : mget m c.username = none := (mget_eq_none_iff m _).2 hc
      have hstep : mergeStep now m c = m ++ [(c.username, c)] := by
        rw [mergeStep, hget]
        exact mset_of_not_mem _ _ _ hc
      rw [hstep, ih, List.filter_cons_of_pos (by simp [hc]), dedupFirst_cons]
      have hkeys : mkeys (m ++ [(c.username, c)]) = mkeys m ++ [c.username] := by
        simp [mkeys]
      have hfe : List.filter (fun u2 => decide (u2 ∉ mkeys m ++ [c.username]))
            (b.map (fun c => c.username))
          = List.filter (fun a => decide (a ≠ c.username) && decide (a ∉ mkeys m))
            (b.map (fun c => c.username)) := by
        apply List.filter_congr
        intro x hx
        by_cases h1 : x ∈ mkeys m <;> by_cases h2 : x = c.username <;> simp [h1, h2]
      rw [hkeys, List.append_assoc, List.filter_filter, List.singleton_append, hfe]

/-- Claim C10 (confirmed): the inter-repository merge preserves record
order — at the username level the output is exactly the existing set in
its original order, followed by the usernames of the new set that do not
occur in the existing set, deduplicated in order of first appearance;
merging never removes or reorders previously accumulated records. -/
theorem C10_merge_order (now : JSDate) (a b : List ContributorData)
    (h : (a.map (fun c => c.username)).Nodup) :
    (mergeContributors now a b).map (fun c => c.username)
      = a.map (fun c => c.username)
        ++ dedupFirst ((b.map (fun c => c.username)).filter
            (fun u => decide (u ∉ a.map (fun c => c.username)))) := by
  have hb := foldl_insertStep_append a [] h (by intro c hc; simp [mkeys])
  rw [List.nil_append] at hb
  have hwfa : ∀ p ∈ (a.map (fun c => (c.username, c)) : CMap), p.2.username = p.1 := by
    intro p hp
    obtain ⟨c, hc, hpc⟩ := List.mem_map.1 hp
    rw [← hpc]
  have hwf := wf_foldl_mergeStep now b _ hwfa
  have husers : (mergeContributors now a b).map (fun c => c.username)
      = mkeys (b.foldl (mergeStep now) (a.map (fun c => (c.username, c)))) := by
    rw [mergeContributors, hb, List.map_map, mkeys]
    exact List.map_congr_left hwf
  have hka : mkeys (a.map (fun c => (c.username, c)) : CMap)
      = a.map (fun c => c.username) := by
    simp [mkeys, List.map_map]
  rw [husers, foldl_mergeStep_keys now b _, hka]

theorem C10_witness :
    (mergeContributors d2024 [sampleAlice] [sampleAlice2, sampleBob]).map
      (fun c => c.username) = ["alice", "bob"] := by
  rw [C10_merge_order d2024 [sampleAlice] [sampleAlice2, sampleBob] (by decide)]
  rfl

/-! ### Claim C1 -/

theorem pipelineFold_inv (now : JSDate) (minC : Nat) (rs : List (List ContributorData))
    (P : ContributorData → Prop)
    (hP : ∀ e c, P e → P c → P (merge2 now e c))
    (hfil : ∀ res ∈ rs, ∀ c ∈ filterMin minC res, P c)
    (acc : List ContributorData) (hacc : ∀ c ∈ acc, P c) :
    ∀ c ∈ rs.foldl (fun acc res => mergeContributors now acc (filterMin minC res)) acc,
      P c := by
  induction rs generalizing acc with
  | nil => exact hacc
  | cons r rs ih =>
    rw [List.foldl_cons]
    exact ih (fun res h => hfil res (List.mem_cons_of_mem _ h)) _
      (mergeContributors_inv P now hP acc _ hacc (hfil r (by simp)))

/-- Claim C1 counterexample: the claim asserts the threshold filter is
applied to the fully inter-repository-merged set, so a user whose
per-repository totals (here 1 and 1) are each below the threshold 2 but
whose merged total (2) reaches it appears in the output.  The code filters
each repository's result before merging, so the run exports nothing, while
the spec-described pipeline (filter after the full merge) exports the
user. -/
theorem C1_counterexample :
    runPipeline d2024 2 [[sampleAlice], [sampleAlice2]] = []
    ∧ specFilterSort d2024 2 [[sampleAlice], [sampleAlice2]] ≠ [] := by
  refine ⟨rfl, ?_⟩
  decide

/-- Claim C1 (amended): the minimum-contributions filter is applied per
repository, before the inter-repository merge.  Every exported record
still has a total at least the effective threshold (each merged component
passed its per-repository filter), and the output is sorted by
totalContributions descending; but a user whose per-repository totals are
each strictly below the threshold never appears in the output, even when
the merged cross-repository total reaches the threshold. -/
theorem C1_amended_per_repo_filter (now : JSDate) (minC : Nat)
    (repoResults : List (List ContributorData)) (u : String)
    (hu : ∀ res ∈ repoResults, ∀ c ∈ res, c.username = u →
      c.totalContributions < effectiveMin minC) :
    (∀ c ∈ runPipeline now minC repoResults, effectiveMin minC ≤ c.totalContributions)
    ∧ (runPipeline now minC repoResults).Pairwise
        (fun x y => y.totalContributions ≤ x.totalContributions)
    ∧ ∀ c ∈ runPipeline now minC repoResults, c.username ≠ u := by
  have hfold : ∀ c ∈ repoResults.foldl
      (fun acc res => mergeContributors now acc (filterMin minC res)) [],
      effectiveMin minC ≤ c.totalContributions ∧ c.username ≠ u := by
    apply pipelineFold_inv now minC repoResults
      (fun c => effectiveMin minC ≤ c.totalContributions ∧ c.username ≠ u)
    · intro e c he hc
      constructor
      · exact le_trans he.1 (Nat.le_add_right _ _)
      · exact he.2
    · intro res hres c hc
      rw [filterMin, List.mem_filter] at hc
      have hle : effectiveMin minC ≤ c.totalContributions := by
        have h2 := hc.2
        simpa using h2
      refine ⟨hle, ?_⟩
      intro hcu
      have := hu res hres c hc.1 hcu
      omega
    · intro c hc
      simp at hc
  have hperm := sortByTotalDesc_perm (repoResults.foldl
    (fun acc res => mergeContributors now acc (filterMin minC res)) [])
  refine ⟨?_, sortByTotalDesc_pairwise _, ?_⟩
  · intro c hc
    exact (hfold c (hperm.mem_iff.1 hc)).1
  · intro c hc
    exact (hfold c (hperm.mem_iff.1 hc)).2

theorem C1_witness :
    effectiveMin 1 ≤ sampleBob.totalContributions :=
  (C1_amended_per_repo_filter d2024 1 [[sampleAlice], [sampleBob]] "carol" (by decide)).1
    sampleBob (by decide)
